import Mathlib

/-!
Verification of the ContextIQ document-agent retrieval pipeline.

This file gives a shallow embedding, in Lean 4, of the core retrieval
pipeline of the repository: the character-based chunker
(`backend/ingest.py: chunk_text`), the page resolver
(`backend/ingest.py: _infer_page_from_offset`), the ingestion entrypoint
(`backend/ingest.py: extract_documents`, `extract_document`), the
in-memory vector store (`backend/vectorstore.py`), and the QA
orchestration (`backend/qa.py: _compute_confidence`,
`_group_retrieved_by_document`, `ask`).

Python strings are modelled as `List Char`; Python `int` as `ℤ`/`ℕ`;
numpy float arithmetic is modelled exactly over `ℝ`; fallible
operations return `Option`.  File-system and network effects are
abstracted as explicit function parameters.
-/

/-! ### Python string primitives -/

/-- Python slice `s[a:b]` (for `a ≤ b`; empty when `a ≥ b`). -/
def pySlice (s : List Char) (a b : ℕ) : List Char :=
  (s.take b).drop a

/-- Predicate: `sub` occurs in `s` starting at position `p` (the whole occurrence lies
inside `s`). -/
def OccursAt (sub s : List Char) (p : ℕ) : Prop :=
  pySlice s p (p + sub.length) = sub

instance (sub s : List Char) (p : ℕ) : Decidable (OccursAt sub s p) := by
  unfold OccursAt; infer_instance

/-- Boolean version of `OccursAt`. -/
def occursAtB (sub s : List Char) (p : ℕ) : Bool :=
  decide (OccursAt sub s p)

/-- An occurrence of a nonempty pattern fits inside the string. -/
theorem OccursAt.le_length {sub s : List Char} {p : ℕ} (hsub : sub ≠ [])
    (h : OccursAt sub s p) : p + sub.length ≤ s.length := by
  have hlen := congrArg List.length h
  simp only [pySlice, List.length_drop, List.length_take] at hlen
  have hL : 0 < sub.length := List.length_pos.mpr hsub
  rcases le_total (p + sub.length) s.length with hle | hle
  · exact hle
  · rw [min_eq_right hle] at hlen; omega

/-! ### The chunker: `backend/ingest.py, chunk_text` -/

/-- A chunk as produced by `chunk_text`: `{"id": f"chunk_{chunk_id}",
"text": text[start:end], "meta": {"start": start, "end": end}}`.
The field `stop` models the Python key `end`. -/
structure Chunk where
  id : String
  text : List Char
  start : ℕ
  stop : ℕ
deriving DecidableEq

/-- The id string `f"chunk_{chunk_id}"`. -/
def mkChunkId (k : ℕ) : String :=
  "chunk_" ++ Nat.repr k

/-- The sliding-window loop of `chunk_text`: while
`start < doc_len and chunk_id < max_chunks`, emit
`text[start : min(start+chunk_chars, doc_len)]`, stop when the window
reaches the end, else advance to `start = max(0, end - overlap)`
(natural subtraction).  `fuel` is `max_chunks - chunk_id`. -/
def chunkLoop (t : List Char) (chunkChars overlap : ℕ) :
    ℕ → ℕ → ℕ → List Chunk
  | _, 0, _ => []
  | start, fuel + 1, cid =>
    if start < t.length then
      let e := min (start + chunkChars) t.length
      let c : Chunk := ⟨mkChunkId cid, pySlice t start e, start, e⟩
      if t.length ≤ e then [c]
      else c :: chunkLoop t chunkChars overlap (e - overlap) fuel (cid + 1)
    else []

/-- Model of `chunk_text(text, chunk_chars, overlap, max_chunks)`: returns `[]` for
empty or whitespace-only input, otherwise runs the sliding window over
the text with CR characters removed. -/
def chunk_text (text : List Char) (chunk_chars overlap max_chunks : ℕ) :
    List Chunk :=
  if text.all (·.isWhitespace) then []
  else chunkLoop (text.filter (· ≠ '\r')) chunk_chars overlap 0 max_chunks 0

/-- When the loop guard holds, the produced list starts with the chunk for
the current window. -/
theorem chunkLoop_cons (t : List Char) (C O start fuel cid : ℕ)
    (hf : fuel ≠ 0) (hs : start < t.length) :
    ∃ tl, chunkLoop t C O start fuel cid =
      ⟨mkChunkId cid, pySlice t start (min (start + C) t.length), start,
        min (start + C) t.length⟩ :: tl := by
  cases fuel with
  | zero => exact absurd rfl hf
  | succ fuel =>
    simp only [chunkLoop, if_pos hs]
    by_cases he : t.length ≤ min (start + C) t.length
    · exact ⟨[], by rw [if_pos he]⟩
    · exact ⟨_, by rw [if_neg he]⟩

/-- Every chunk emitted by the loop lies inside the text, is nonempty,
has width at most `chunkChars`, and carries the matching slice. -/
theorem chunkLoop_mem (t : List Char) (C O : ℕ) (hCO : O < C) :
    ∀ fuel start cid, ∀ c ∈ chunkLoop t C O start fuel cid,
      start ≤ c.start ∧ c.start < c.stop ∧ c.stop ≤ t.length ∧
        c.stop - c.start ≤ C ∧ c.text = pySlice t c.start c.stop := by
  intro fuel
  induction fuel with
  | zero => intro start cid c hc; simp [chunkLoop] at hc
  | succ fuel ih =>
    intro start cid c hc
    simp only [chunkLoop] at hc
    by_cases hs : start < t.length
    · rw [if_pos hs] at hc
      have hhead :
          c = ⟨mkChunkId cid, pySlice t start (min (start + C) t.length),
                start, min (start + C) t.length⟩ →
          start ≤ c.start ∧ c.start < c.stop ∧ c.stop ≤ t.length ∧
            c.stop - c.start ≤ C ∧ c.text = pySlice t c.start c.stop := by
        intro hceq
        subst hceq
        dsimp only
        refine ⟨le_refl _, ?_, ?_, ?_, rfl⟩
        · exact lt_min_iff.mpr ⟨by omega, hs⟩
        · exact min_le_right _ _
        · have := min_le_left (start + C) t.length
          omega
      by_cases he : t.length ≤ min (start + C) t.length
      · rw [if_pos he] at hc
        simp only [List.mem_singleton] at hc
        exact hhead hc
      · rw [if_neg he] at hc
        rcases List.mem_cons.mp hc with hceq | htl
        · exact hhead hceq
        · have := ih (min (start + C) t.length - O) (cid + 1) c htl
          refine ⟨?_, this.2⟩
          have hminlt : min (start + C) t.length < t.length :=
            lt_of_not_le he
          have hfull : start + C ≤ t.length := by
            by_contra hgt
            push_neg at hgt
            rw [min_eq_right (le_of_lt hgt)] at hminlt
            exact lt_irrefl _ hminlt
          rw [min_eq_left hfull] at this
          omega
    · rw [if_neg hs] at hc
      simp at hc

/-- Adjacent chunks: the next chunk starts exactly `overlap` characters
before the previous one ends, the previous (non-final) window is full
width, and ends do not decrease. -/
theorem chunkLoop_chain (t : List Char) (C O : ℕ) (hCO : O < C) :
    ∀ fuel start cid,
      List.Chain'
        (fun a b => b.start + O = a.stop ∧ a.stop = a.start + C ∧
          a.stop ≤ b.stop)
        (chunkLoop t C O start fuel cid) := by
  intro fuel
  induction fuel with
  | zero => intro start cid; simp [chunkLoop]
  | succ fuel ih =>
    intro start cid
    simp only [chunkLoop]
    by_cases hs : start < t.length
    · rw [if_pos hs]
      by_cases he : t.length ≤ min (start + C) t.length
      · rw [if_pos he]; simp
      · rw [if_neg he]
        have hminlt : min (start + C) t.length < t.length := lt_of_not_le he
        have hfull : start + C ≤ t.length := by
          by_contra hgt
          push_neg at hgt
          rw [min_eq_right (le_of_lt hgt)] at hminlt
          exact lt_irrefl _ hminlt
        have hmin : min (start + C) t.length = start + C := min_eq_left hfull
        refine List.chain'_cons'.mpr ⟨?_, ih _ _⟩
        intro b hb
        rcases hrest : chunkLoop t C O (min (start + C) t.length - O) fuel
            (cid + 1) with _ | ⟨b', tl⟩
        · rw [hrest] at hb; simp at hb
        · rw [hrest] at hb
          simp only [List.head?_cons, Option.mem_def, Option.some.injEq] at hb
          subst hb
          have hfz : fuel ≠ 0 := by
            intro hfz; rw [hfz] at hrest; simp [chunkLoop] at hrest
          have hs' : min (start + C) t.length - O < t.length := by
            rw [hmin]; omega
          obtain ⟨tl', htl'⟩ := chunkLoop_cons t C O _ fuel (cid + 1) hfz hs'
          rw [hrest] at htl'
          have hb' := (List.cons.injEq _ _ _ _).mp htl' |>.1
          subst hb'
          dsimp only
          rw [hmin]
          rw [hmin] at hminlt
          refine ⟨by omega, by omega, ?_⟩
          simp only [le_min_iff]
          exact ⟨by omega, by omega⟩
    · rw [if_neg hs]; simp

/-- C2: for `chunkSize > overlap ≥ 0`, the chunks of `chunk_text` have
strictly increasing starts, each chunk is at most `chunkSize` characters
and is the matching slice of the (CR-stripped) text, and each pair of
consecutive chunks overlaps in exactly `overlap` characters (the next
chunk starts exactly `overlap` characters before the previous one ends,
and ends never decrease). -/
theorem chunk_text_window_spec (text : List Char) (C O M : ℕ)
    (hCO : O < C) :
    List.Chain'
      (fun a b => b.start + O = a.stop ∧ a.stop = a.start + C ∧
        a.stop ≤ b.stop)
      (chunk_text text C O M) ∧
    List.Pairwise (fun a b => a.start < b.start) (chunk_text text C O M) ∧
    ∀ c ∈ chunk_text text C O M,
      c.start < c.stop ∧ c.stop ≤ (text.filter (· ≠ '\r')).length ∧
        c.stop - c.start ≤ C ∧ c.text.length = c.stop - c.start := by
  unfold chunk_text
  by_cases hws : text.all (·.isWhitespace)
  · rw [if_pos hws]; simp
  · rw [if_neg hws]
    set t := text.filter (· ≠ '\r') with ht
    have hchain := chunkLoop_chain t C O hCO M 0 0
    have hmem := chunkLoop_mem t C O hCO M 0 0
    refine ⟨hchain, ?_, ?_⟩
    · have hmono : List.Chain' (fun a b : Chunk => a.start < b.start)
          (chunkLoop t C O 0 M 0) := by
        refine List.Chain'.imp ?_ hchain
        intro a b hab
        omega
      haveI : IsTrans Chunk (fun a b => a.start < b.start) :=
        ⟨fun _ _ _ h1 h2 => lt_trans h1 h2⟩
      exact List.chain'_iff_pairwise.mp hmono
    · intro c hc
      obtain ⟨-, h1, h2, h3, h4⟩ := hmem c hc
      refine ⟨h1, h2, h3, ?_⟩
      rw [h4]
      unfold pySlice
      simp only [List.length_drop, List.length_take]
      omega

/-- Witness for C2 at `text = "abcdefgh"`, `chunkSize = 3`, `overlap = 1`:
the windows are `(0,3) (2,5) (4,7) (6,8)`. -/
theorem chunk_text_window_spec_witness :
    (1 : ℕ) < 3 ∧
    (List.Chain'
      (fun a b => b.start + 1 = a.stop ∧ a.stop = a.start + 3 ∧
        a.stop ≤ b.stop)
      (chunk_text "abcdefgh".data 3 1 500) ∧
    List.Pairwise (fun a b => a.start < b.start)
      (chunk_text "abcdefgh".data 3 1 500) ∧
    ∀ c ∈ chunk_text "abcdefgh".data 3 1 500,
      c.start < c.stop ∧
        c.stop ≤ ("abcdefgh".data.filter (· ≠ '\r')).length ∧
        c.stop - c.start ≤ 3 ∧ c.text.length = c.stop - c.start) :=
  ⟨by norm_num, chunk_text_window_spec "abcdefgh".data 3 1 500 (by norm_num)⟩

/-! ### The page resolver: `backend/ingest.py, _infer_page_from_offset` -/

/-- Forward character search: `findCharAux c l p` returns the absolute
position of the first occurrence of `c` in `l`, where `l` starts at
absolute position `p`. -/
def findCharAux (c : Char) : List Char → ℕ → Option ℕ
  | [], _ => none
  | x :: xs, p => if x = c then some p else findCharAux c xs (p + 1)

/-- Python `s.find(c, start)` for a single character, returning `none`
for Python's `-1`. -/
def pyFindChar (s : List Char) (c : Char) (start : ℕ) : Option ℕ :=
  findCharAux c (s.drop start) start

/-- Backward search: largest `p ≤ k` at which `sub` occurs in `s`. -/
def rfindAux (sub s : List Char) : ℕ → Option ℕ
  | 0 => if occursAtB sub s 0 then some 0 else none
  | p + 1 => if occursAtB sub s (p + 1) then some (p + 1) else rfindAux sub s p

/-- Python `s.rfind(sub, 0, stop)`, returning `none` for Python's `-1`:
the largest start position of an occurrence of `sub` that lies entirely
inside `s[0:stop]`. -/
def pyRfind (s sub : List Char) (stop : ℕ) : Option ℕ :=
  let hi := min stop s.length
  if sub.length ≤ hi then rfindAux sub s (hi - sub.length) else none

/-- Python `str.strip()` (whitespace from both ends). -/
def pyStrip (l : List Char) : List Char :=
  ((l.dropWhile Char.isWhitespace).reverse.dropWhile Char.isWhitespace).reverse

/-- Numeric value of an ASCII digit. -/
def digitVal (c : Char) : ℕ := c.toNat - 48

/-- Digits of a Python integer literal after the first digit: ASCII
digits with single underscores allowed between digits. -/
def pyDigitsAux : List Char → ℕ → Option ℕ
  | [], acc => some acc
  | '_' :: c :: rest, acc =>
    if c.isDigit then pyDigitsAux rest (acc * 10 + digitVal c) else none
  | c :: rest, acc =>
    if c.isDigit then pyDigitsAux rest (acc * 10 + digitVal c) else none

/-- A nonempty string of ASCII digits (with medial underscores). -/
def pyDigits : List Char → Option ℕ
  | [] => none
  | c :: rest => if c.isDigit then pyDigitsAux rest (digitVal c) else none

/-- Python `int(str)` on an already-stripped argument modulo an optional
leading sign; returns `none` where Python raises `ValueError`. -/
def pyInt (l : List Char) : Option ℤ :=
  match pyStrip l with
  | '+' :: rest => (pyDigits rest).map (fun n => (n : ℤ))
  | '-' :: rest => (pyDigits rest).map (fun n => -(n : ℤ))
  | rest => (pyDigits rest).map (fun n => (n : ℤ))

/-- The literal page marker `"[PAGE "`. -/
def pageMarker : List Char := "[PAGE ".data

/-- Model of `_infer_page_from_offset(full_text, char_index)`: look backwards from
`char_index` for the most recent `"[PAGE "` marker, then parse the
integer up to the next `"]"`; `none` when the marker or the closing
bracket is missing or parsing fails.  The function is total: the
Python original never raises (`ValueError` is caught). -/
def infer_page_from_offset (s : List Char) (charIndex : ℕ) : Option ℤ :=
  match pyRfind s pageMarker charIndex with
  | none => none
  | some pos =>
    match pyFindChar s ']' pos with
    | none => none
    | some eb => pyInt (pySlice s (pos + pageMarker.length) eb)

/-- A successful forward search returns the first occurrence at or after
the start position. -/
theorem findCharAux_some (c : Char) :
    ∀ (l : List Char) (p q : ℕ), findCharAux c l p = some q →
      p ≤ q ∧ l[q - p]? = some c ∧ ∀ j, j < q - p → l[j]? ≠ some c := by
  intro l
  induction l with
  | nil => intro p q h; simp [findCharAux] at h
  | cons x xs ih =>
    intro p q h
    simp only [findCharAux] at h
    by_cases hx : x = c
    · rw [if_pos hx] at h
      injection h with h
      subst h
      subst hx
      refine ⟨le_refl _, by simp, ?_⟩
      intro j hj
      omega
    · rw [if_neg hx] at h
      obtain ⟨hpq, hget, hfirst⟩ := ih (p + 1) q h
      refine ⟨by omega, ?_, ?_⟩
      · have hq : q - p = (q - (p + 1)) + 1 := by omega
        rw [hq, List.getElem?_cons_succ]
        exact hget
      · intro j hj
        cases j with
        | zero =>
          rw [List.getElem?_cons_zero]
          intro hc
          exact hx (Option.some.inj hc)
        | succ j =>
          rw [List.getElem?_cons_succ]
          exact hfirst j (by omega)

/-- A failed forward search means the character does not occur. -/
theorem findCharAux_none (c : Char) :
    ∀ (l : List Char) (p : ℕ), findCharAux c l p = none →
      ∀ j, j < l.length → l[j]? ≠ some c := by
  intro l
  induction l with
  | nil => intro p h j hj; simp at hj
  | cons x xs ih =>
    intro p h j hj
    simp only [findCharAux] at h
    by_cases hx : x = c
    · rw [if_pos hx] at h; exact absurd h (by simp)
    · rw [if_neg hx] at h
      cases j with
      | zero =>
        rw [List.getElem?_cons_zero]
        intro hc
        exact hx (Option.some.inj hc)
      | succ j =>
        rw [List.getElem?_cons_succ]
        exact ih (p + 1) h j (by simpa using hj)

/-- Python `find` semantics: the result is the first occurrence at or
after `start`. -/
theorem pyFindChar_some {s : List Char} {c : Char} {start q : ℕ}
    (h : pyFindChar s c start = some q) :
    start ≤ q ∧ s[q]? = some c ∧
      ∀ r, start ≤ r → r < q → s[r]? ≠ some c := by
  obtain ⟨h1, h2, h3⟩ := findCharAux_some c (s.drop start) start q h
  rw [List.getElem?_drop] at h2
  have hq : start + (q - start) = q := by omega
  rw [hq] at h2
  refine ⟨h1, h2, ?_⟩
  intro r hr1 hr2
  have := h3 (r - start) (by omega)
  rw [List.getElem?_drop] at this
  have hr : start + (r - start) = r := by omega
  rwa [hr] at this

/-- Python `find` returning `-1`: no occurrence at or after `start`. -/
theorem pyFindChar_none {s : List Char} {c : Char} {start : ℕ}
    (h : pyFindChar s c start = none) :
    ∀ r, start ≤ r → r < s.length → s[r]? ≠ some c := by
  intro r hr1 hr2
  have := findCharAux_none c (s.drop start) start h (r - start)
    (by simp [List.length_drop]; omega)
  rw [List.getElem?_drop] at this
  have hr : start + (r - start) = r := by omega
  rwa [hr] at this

/-- A successful backward search returns an occurrence, bounded by `k`,
and maximal among occurrences bounded by `k`. -/
theorem rfindAux_some {sub s : List Char} :
    ∀ (k p : ℕ), rfindAux sub s k = some p →
      OccursAt sub s p ∧ p ≤ k ∧
        ∀ q, q ≤ k → OccursAt sub s q → q ≤ p := by
  intro k
  induction k with
  | zero =>
    intro p h
    simp only [rfindAux, occursAtB] at h
    by_cases h0 : OccursAt sub s 0
    · rw [if_pos (by simpa using h0)] at h
      injection h with h
      subst h
      exact ⟨h0, le_refl _, fun q hq _ => hq⟩
    · rw [if_neg (by simpa using h0)] at h
      exact absurd h (by simp)
  | succ k ih =>
    intro p h
    simp only [rfindAux, occursAtB] at h
    by_cases hk : OccursAt sub s (k + 1)
    · rw [if_pos (by simpa using hk)] at h
      injection h with h
      subst h
      exact ⟨hk, le_refl _, fun q hq _ => hq⟩
    · rw [if_neg (by simpa using hk)] at h
      obtain ⟨h1, h2, h3⟩ := ih p h
      refine ⟨h1, by omega, ?_⟩
      intro q hq hocc
      rcases Nat.lt_or_ge q (k + 1) with hlt | hge
      · exact h3 q (by omega) hocc
      · exfalso
        have hq1 : q = k + 1 := by omega
        rw [hq1] at hocc
        exact hk hocc

/-- A failed backward search: no occurrence bounded by `k`. -/
theorem rfindAux_none {sub s : List Char} :
    ∀ (k : ℕ), rfindAux sub s k = none →
      ∀ q, q ≤ k → ¬ OccursAt sub s q := by
  intro k
  induction k with
  | zero =>
    intro h q hq
    simp only [rfindAux, occursAtB] at h
    interval_cases q
    by_cases h0 : OccursAt sub s 0
    · rw [if_pos (by simpa using h0)] at h; exact absurd h (by simp)
    · exact h0
  | succ k ih =>
    intro h q hq
    simp only [rfindAux, occursAtB] at h
    by_cases hk : OccursAt sub s (k + 1)
    · rw [if_pos (by simpa using hk)] at h; exact absurd h (by simp)
    · rw [if_neg (by simpa using hk)] at h
      rcases Nat.lt_or_ge q (k + 1) with hlt | hge
      · exact ih h q (by omega)
      · have : q = k + 1 := by omega
        rw [this]; exact hk

/-- Position `p` is the nearest `"[PAGE "` marker whose occurrence lies entirely
before `off` (this is the `rfind` contract: the occurrence must fit in
`full_text[0:off]`). -/
def NearestMarker (s : List Char) (off p : ℕ) : Prop :=
  OccursAt pageMarker s p ∧ p + pageMarker.length ≤ off ∧
    ∀ q, q < s.length → OccursAt pageMarker s q →
      q + pageMarker.length ≤ off → q ≤ p

instance (s : List Char) (off p : ℕ) : Decidable (NearestMarker s off p) := by
  unfold NearestMarker; infer_instance

/-- Position `q` is the first `"]"` at or after position `start`. -/
def FirstCloseFrom (s : List Char) (start q : ℕ) : Prop :=
  start ≤ q ∧ s[q]? = some ']' ∧
    ∀ r, r < q → start ≤ r → s[r]? ≠ some ']'

instance (s : List Char) (start q : ℕ) : Decidable (FirstCloseFrom s start q) := by
  unfold FirstCloseFrom; infer_instance

/-- The backward marker search finds exactly the nearest marker before
the offset. -/
theorem pyRfind_marker_eq_some {s : List Char} {off p : ℕ}
    (h : NearestMarker s off p) : pyRfind s pageMarker off = some p := by
  obtain ⟨hocc, hoff, hmax⟩ := h
  have hml : pageMarker.length = 6 := by decide
  have hfit := hocc.le_length (by decide)
  unfold pyRfind
  set m := min off s.length with hmdef
  have hm1 : m ≤ off := min_le_left _ _
  have hm2 : m ≤ s.length := min_le_right _ _
  have hm3 : p + pageMarker.length ≤ m := le_min hoff hfit
  rw [if_pos (by omega)]
  cases hr : rfindAux pageMarker s (m - pageMarker.length) with
  | none =>
    exfalso
    exact rfindAux_none _ hr p (by omega) hocc
  | some p' =>
    obtain ⟨hocc', hle', hmax'⟩ := rfindAux_some _ _ hr
    have hfit' := hocc'.le_length (by decide)
    have h1 : p' ≤ p := hmax p' (by omega) hocc' (by omega)
    have h2 : p ≤ p' := hmax' p (by omega) hocc
    have : p' = p := le_antisymm h1 h2
    rw [this]

/-- When no marker occurrence lies before the offset, the backward
search fails (Python returns `-1`). -/
theorem pyRfind_marker_eq_none {s : List Char} {off : ℕ}
    (h : ∀ p, OccursAt pageMarker s p → ¬ p + pageMarker.length ≤ off) :
    pyRfind s pageMarker off = none := by
  unfold pyRfind
  set m := min off s.length with hmdef
  have hm1 : m ≤ off := min_le_left _ _
  by_cases hhi : pageMarker.length ≤ m
  · rw [if_pos hhi]
    cases hr : rfindAux pageMarker s (m - pageMarker.length) with
    | none => rfl
    | some p' =>
      obtain ⟨hocc', hle', -⟩ := rfindAux_some _ _ hr
      exfalso
      exact h p' hocc' (by omega)
  · rw [if_neg hhi]

/-- The forward search finds exactly the first closing bracket. -/
theorem pyFindChar_eq_of_first {s : List Char} {start eb : ℕ}
    (h : FirstCloseFrom s start eb) : pyFindChar s ']' start = some eb := by
  obtain ⟨h1, h2, h3⟩ := h
  cases hf : pyFindChar s ']' start with
  | none =>
    exfalso
    have heb : eb < s.length := (List.getElem?_eq_some.mp h2).1
    exact pyFindChar_none hf eb h1 heb h2
  | some q =>
    obtain ⟨hq1, hq2, hq3⟩ := pyFindChar_some hf
    rcases lt_trichotomy q eb with hlt | heq | hgt
    · exact absurd hq2 (h3 q hlt hq1)
    · rw [heq]
    · exact absurd h2 (hq3 eb h1 hgt)

/-- C3: `_infer_page_from_offset` returns the integer parsed (up to the
next `"]"`) from the nearest `"[PAGE "` marker lying entirely before the
offset; it returns `none` when no such marker exists or no closing
bracket follows it (and `pyInt` returns `none` when parsing fails).
The function is total, so it never raises.  Concretely: the offset just
after a `"[PAGE 7]"` marker resolves to `7`; an offset before the first
marker, a malformed page number, and a missing closing bracket all
resolve to `none`. -/
theorem infer_page_spec (s : List Char) (off : ℕ) :
    ((∀ p, OccursAt pageMarker s p → ¬ p + pageMarker.length ≤ off) →
      infer_page_from_offset s off = none) ∧
    (∀ p, NearestMarker s off p →
      (pyFindChar s ']' p = none → infer_page_from_offset s off = none) ∧
      ∀ eb, FirstCloseFrom s p eb →
        infer_page_from_offset s off =
          pyInt (pySlice s (p + pageMarker.length) eb)) ∧
    infer_page_from_offset "ab[PAGE 7]cd".data 10 = some 7 ∧
    infer_page_from_offset "ab[PAGE 7]cd".data 1 = none ∧
    infer_page_from_offset "ab[PAGE x]cd".data 10 = none ∧
    infer_page_from_offset "ab[PAGE 7 cd".data 10 = none := by
  refine ⟨?_, ?_, by decide, by decide, by decide, by decide⟩
  · intro h
    unfold infer_page_from_offset
    rw [pyRfind_marker_eq_none h]
  · intro p hp
    have hr := pyRfind_marker_eq_some hp
    constructor
    · intro hfc
      unfold infer_page_from_offset
      rw [hr]
      dsimp only
      rw [hfc]
    · intro eb heb
      have hfc : pyFindChar s ']' p = some eb := pyFindChar_eq_of_first heb
      unfold infer_page_from_offset
      rw [hr]
      dsimp only
      rw [hfc]

/-- Witness for C3 on `"ab[PAGE 7]cd"`: position 2 is the nearest marker
before offset 10, position 9 the first closing bracket, and the resolver
returns the parse of the slice between them (which is `7`). -/
theorem infer_page_spec_witness :
    NearestMarker "ab[PAGE 7]cd".data 10 2 ∧
    FirstCloseFrom "ab[PAGE 7]cd".data 2 9 ∧
    infer_page_from_offset "ab[PAGE 7]cd".data 10 =
      pyInt (pySlice "ab[PAGE 7]cd".data (2 + pageMarker.length) 9) :=
  ⟨by decide, by decide,
    ((infer_page_spec "ab[PAGE 7]cd".data 10).2.1 2 (by decide)).2 9 (by decide)⟩

/-! ### Decimal chunk ids are injective -/

/-- Decimal digit string of a natural number (most significant first),
the mathematical content of `Nat.toDigitsCore` at base 10. -/
def decRep (n : ℕ) : List Char :=
  if n < 10 then [Nat.digitChar n]
  else decRep (n / 10) ++ [Nat.digitChar (n % 10)]
termination_by n
decreasing_by exact Nat.div_lt_self (by omega) (by omega)

/-- Core's `Nat.toDigitsCore` with enough fuel computes `decRep`. -/
theorem toDigitsCore_eq_decRep :
    ∀ (f n : ℕ) (acc : List Char), n < f →
      Nat.toDigitsCore 10 f n acc = decRep n ++ acc := by
  intro f
  induction f with
  | zero => intro n acc h; omega
  | succ f ih =>
    intro n acc h
    conv_lhs => rw [Nat.toDigitsCore]
    by_cases h10 : n / 10 = 0
    · have hn : n < 10 := by omega
      simp only [h10, if_true, if_pos]
      rw [decRep, if_pos hn, Nat.mod_eq_of_lt hn]
      rfl
    · have hn : 10 ≤ n := by omega
      simp only [h10, if_false]
      rw [ih (n / 10) _ (by omega)]
      conv_rhs => rw [decRep]
      rw [if_neg (show ¬ n < 10 by omega)]
      simp [List.append_assoc]

/-- Reading a digit string back as a number. -/
def reprVal (l : List Char) : ℕ :=
  l.foldl (fun a c => a * 10 + (c.toNat - 48)) 0

/-- The digit character of `d < 10` decodes back to `d`. -/
theorem digitChar_decode (d : ℕ) (h : d < 10) :
    (Nat.digitChar d).toNat - 48 = d := by
  interval_cases d <;> decide

/-- Reading back: `reprVal` is a left inverse of `decRep`. -/
theorem reprVal_decRep (n : ℕ) : reprVal (decRep n) = n := by
  induction n using Nat.strong_induction_on with
  | _ n ih =>
    by_cases hn : n < 10
    · rw [decRep, if_pos hn]
      simp [reprVal, digitChar_decode n hn]
    · rw [decRep, if_neg hn]
      have hdiv := ih (n / 10) (Nat.div_lt_self (by omega) (by omega))
      unfold reprVal
      rw [List.foldl_append]
      unfold reprVal at hdiv
      rw [hdiv]
      simp [digitChar_decode (n % 10) (by omega)]
      omega

/-- Decimal representations of distinct numbers differ. -/
theorem natRepr_data_inj {m n : ℕ}
    (h : (Nat.repr m).data = (Nat.repr n).data) : m = n := by
  have h2 : Nat.toDigits 10 m = Nat.toDigits 10 n := h
  have hm : Nat.toDigits 10 m = decRep m ++ [] :=
    toDigitsCore_eq_decRep (m + 1) m [] (Nat.lt_succ_self m)
  have hn : Nat.toDigits 10 n = decRep n ++ [] :=
    toDigitsCore_eq_decRep (n + 1) n [] (Nat.lt_succ_self n)
  rw [hm, hn, List.append_nil, List.append_nil] at h2
  have := congrArg reprVal h2
  rwa [reprVal_decRep, reprVal_decRep] at this

/-- The chunk ids `f"chunk_{k}"` are pairwise distinct. -/
theorem mkChunkId_injective : Function.Injective mkChunkId := by
  intro m n h
  unfold mkChunkId at h
  have hd := congrArg String.data h
  rw [String.data_append, String.data_append] at hd
  exact natRepr_data_inj (List.append_cancel_left hd)

/-- The ids produced by the chunk loop are consecutive `chunk_<k>`
starting at the initial counter value. -/
theorem chunkLoop_ids (t : List Char) (C O : ℕ) :
    ∀ fuel start cid,
      (chunkLoop t C O start fuel cid).map Chunk.id =
        (List.range' cid (chunkLoop t C O start fuel cid).length).map
          mkChunkId := by
  intro fuel
  induction fuel with
  | zero => intro start cid; simp [chunkLoop]
  | succ fuel ih =>
    intro start cid
    simp only [chunkLoop]
    by_cases hs : start < t.length
    · rw [if_pos hs]
      by_cases he : t.length ≤ min (start + C) t.length
      · rw [if_pos he]
        simp [List.range'_succ]
      · rw [if_neg he]
        simp only [List.map_cons, List.length_cons, List.range'_succ]
        rw [ih]
    · rw [if_neg hs]; simp

/-- C8 (amended): within the chunk sequence of a single document, the
chunk ids are the consecutive strings `chunk_0, chunk_1, ...` and are
pairwise distinct.  (Across documents of one ingestion call the counter
restarts, so ids repeat; see the counterexample.) -/
theorem chunk_text_ids_nodup (text : List Char) (C O M : ℕ) :
    ((chunk_text text C O M).map Chunk.id).Nodup ∧
    (chunk_text text C O M).map Chunk.id =
      (List.range' 0 (chunk_text text C O M).length).map mkChunkId := by
  have hids : (chunk_text text C O M).map Chunk.id =
      (List.range' 0 (chunk_text text C O M).length).map mkChunkId := by
    unfold chunk_text
    by_cases hws : text.all (·.isWhitespace)
    · rw [if_pos hws]; simp
    · rw [if_neg hws]
      exact chunkLoop_ids _ C O M 0 0
  refine ⟨?_, hids⟩
  rw [hids]
  exact (List.nodup_range' ..).map mkChunkId_injective

/-! ### Format dispatch: `backend/ingest.py, extract_document` -/

/-- Index of the last occurrence of a character. -/
def lastIdxOf (c : Char) (l : List Char) : Option ℕ :=
  match findCharAux c l.reverse 0 with
  | none => none
  | some i => some (l.length - 1 - i)

/-- Model of `os.path.splitext` (POSIX): split off the extension after the last
dot of the basename, unless the basename consists only of leading dots
up to that point. -/
def pySplitExtAux (p : List Char) : List Char × List Char :=
  let sepIndex : ℤ := match lastIdxOf '/' p with | none => -1 | some i => (i : ℤ)
  let dotIndex : ℤ := match lastIdxOf '.' p with | none => -1 | some i => (i : ℤ)
  if sepIndex < dotIndex then
    if (List.range p.length).any (fun j =>
        decide (sepIndex + 1 ≤ (j : ℤ) ∧ (j : ℤ) < dotIndex) &&
          decide (p[j]? ≠ some '.')) then
      (p.take dotIndex.toNat, p.drop dotIndex.toNat)
    else (p, [])
  else (p, [])

/-- Model of `os.path.splitext(path)[1].lower()`. -/
def pyLowerExt (path : String) : List Char :=
  (pySplitExtAux path.data).2.map Char.toLower

/-- The two error outcomes of `extract_document`: `FileNotFoundError`
and `ValueError(f"Unsupported format: {ext}")`. -/
inductive ExtractError where
  | fileNotFound (path : String)
  | unsupportedFormat (ext : List Char)
deriving DecidableEq

/-- The three format variants of the dispatch. -/
inductive DocFormat where
  | pdf
  | docx
  | html
deriving DecidableEq

/-- The recognised lowercased extensions. -/
def supportedExts : List (List Char) :=
  [".pdf".data, ".docx".data, ".html".data, ".htm".data]

/-- Model of `extract_document(path)`: check existence, then dispatch on the
lowercased extension.  The file system is abstracted as the predicate
`fsExists`; the format-specific extraction work is abstracted as
`doWork` (called only after both checks pass). -/
def extract_document {α : Type} (fsExists : String → Bool)
    (doWork : DocFormat → String → α) (path : String) :
    Except ExtractError α :=
  if fsExists path = false then .error (.fileNotFound path)
  else
    let ext := pyLowerExt path
    if ext = ".pdf".data then .ok (doWork .pdf path)
    else if ext = ".docx".data then .ok (doWork .docx path)
    else if ext ∈ [".html".data, ".htm".data] then .ok (doWork .html path)
    else .error (.unsupportedFormat ext)

/-- C9: `extract_document` fails with `FileNotFound` exactly on missing
paths (checked first), fails with `UnsupportedFormat` exactly on
existing paths whose lowercased extension is not one of
`.pdf/.docx/.html/.htm`, and in both failure cases performs no
format-specific work (the result does not depend on `doWork`). -/
theorem extract_document_gate {α : Type} (fsExists : String → Bool)
    (w1 w2 : DocFormat → String → α) (path : String) :
    (extract_document fsExists w1 path = .error (.fileNotFound path) ↔
      fsExists path = false) ∧
    (extract_document fsExists w1 path =
        .error (.unsupportedFormat (pyLowerExt path)) ↔
      fsExists path = true ∧ pyLowerExt path ∉ supportedExts) ∧
    ((fsExists path = false ∨ pyLowerExt path ∉ supportedExts) →
      extract_document fsExists w1 path = extract_document fsExists w2 path) := by
  unfold extract_document
  by_cases hfs : fsExists path = false
  · rw [if_pos hfs, if_pos hfs]
    exact ⟨by simp [hfs], by simp [hfs], fun _ => rfl⟩
  · have hfs' : fsExists path = true := by
      cases h : fsExists path
      · exact absurd h hfs
      · rfl
    rw [if_neg hfs, if_neg hfs]
    by_cases h1 : pyLowerExt path = ".pdf".data
    · rw [if_pos h1, if_pos h1]
      refine ⟨by simp [hfs], by simp [supportedExts, h1, hfs'], ?_⟩
      intro hc
      rcases hc with hc | hc
      · exact absurd hc hfs
      · exact absurd (by simp [supportedExts, h1]) hc
    · rw [if_neg h1, if_neg h1]
      by_cases h2 : pyLowerExt path = ".docx".data
      · rw [if_pos h2, if_pos h2]
        refine ⟨by simp [hfs], by simp [supportedExts, h2, hfs'], ?_⟩
        intro hc
        rcases hc with hc | hc
        · exact absurd hc hfs
        · exact absurd (by simp [supportedExts, h2]) hc
      · rw [if_neg h2, if_neg h2]
        by_cases h3 : pyLowerExt path ∈ [".html".data, ".htm".data]
        · rw [if_pos h3, if_pos h3]
          have hin : pyLowerExt path ∈ supportedExts := by
            simp only [List.mem_cons, List.not_mem_nil, or_false] at h3
            simp only [supportedExts, List.mem_cons, List.not_mem_nil, or_false]
            tauto
          refine ⟨by simp [hfs], by simp [hfs', hin], ?_⟩
          intro hc
          rcases hc with hc | hc
          · exact absurd hc hfs
          · exact absurd hin hc
        · rw [if_neg h3, if_neg h3]
          have hnot : pyLowerExt path ∉ supportedExts := by
            intro hmem
            simp only [supportedExts, List.mem_cons, List.not_mem_nil,
              or_false] at hmem
            rcases hmem with h | h | h | h
            · exact h1 h
            · exact h2 h
            · exact h3 (by simp [h])
            · exact h3 (by simp [h])
          exact ⟨by simp [hfs], by simp [hfs', hnot], fun _ => rfl⟩

/-- Witness for C9: an existing path `doc.txt` has unsupported
extension `.txt`, and the result is independent of the extraction
worker. -/
theorem extract_document_gate_witness :
    ((fun _ : String => true) "doc.txt" = false ∨
      pyLowerExt "doc.txt" ∉ supportedExts) ∧
    extract_document (fun _ => true) (fun _ _ => (0 : ℕ)) "doc.txt" =
      extract_document (fun _ => true) (fun _ _ => (1 : ℕ)) "doc.txt" :=
  ⟨Or.inr (by decide),
    (extract_document_gate (fun _ => true) (fun _ _ => (0 : ℕ))
      (fun _ _ => (1 : ℕ)) "doc.txt").2.2 (Or.inr (by decide))⟩

/-! ### Batch ingestion: `backend/ingest.py, extract_documents` -/

/-- The part of an extracted document that the chunk-metadata
enrichment reads: `doc["id"]`, `doc["title"]`, `doc["full_text"]`. -/
structure DocContent where
  id : String
  title : String
  full_text : List Char
deriving DecidableEq

/-- The metadata attached to every chunk by `extract_documents`. -/
structure ChunkMeta where
  start : ℕ
  stop : ℕ
  source_doc : String
  source_name : String
  document_name : String
  title : String
  source_path : String
  page : Option ℤ
deriving DecidableEq

/-- A chunk after metadata enrichment in `extract_documents`. -/
structure RichChunk where
  id : String
  text : List Char
  meta : ChunkMeta
deriving DecidableEq

/-- Model of `os.path.basename`. -/
def pyBasename (path : String) : String :=
  match lastIdxOf '/' path.data with
  | none => path
  | some i => ((path.data.drop (i + 1)).asString)

/-- The `c["meta"].update({...})` step of `extract_documents`: attach
document attribution and the page inferred from the chunk start
offset. -/
def enrichChunk (doc : DocContent) (path : String) (c : Chunk) : RichChunk :=
  { id := c.id
    text := c.text
    meta :=
      { start := c.start
        stop := c.stop
        source_doc := doc.id
        source_name := pyBasename path
        document_name := doc.title
        title := doc.title
        source_path := path
        page := infer_page_from_offset doc.full_text c.start } }

/-- Model of `extract_documents(file_paths)`: per path, extract (failures are
caught and skipped, modelled by `extractFn` returning `none`), chunk
the full text with `chunk_chars=1500, overlap=200` (and the default
`max_chunks=500`), enrich every chunk's metadata, and concatenate. -/
def extract_documents (extractFn : String → Option DocContent)
    (paths : List String) : List RichChunk :=
  paths.flatMap fun path =>
    match extractFn path with
    | none => []
    | some doc =>
      (chunk_text doc.full_text 1500 200 500).map (enrichChunk doc path)

/-- C8 counterexample: one ingestion call over two documents repeats
the id `chunk_0`, so the chunk ids of a single `extract_documents`
call are not pairwise distinct. -/
theorem extract_documents_duplicate_ids :
    ¬ ((extract_documents
        (fun _ => some ⟨"d", "t", "hello world".data⟩)
        ["a.pdf", "b.pdf"]).map RichChunk.id).Nodup := by
  decide

/-! ### The vector store: `backend/vectorstore.py` -/

/-- numpy's guard `1e-10` added to norms before dividing. -/
noncomputable def npEps : ℝ := 1 / 10 ^ 10

/-- Sum of squares of the entries. -/
def sumSq (v : List ℝ) : ℝ := (v.map fun x => x * x).sum

/-- Model of `np.linalg.norm` (L2). -/
noncomputable def l2norm (v : List ℝ) : ℝ := Real.sqrt (sumSq v)

/-- The map `vec / (np.linalg.norm(vec) + 1e-10)`, the normalisation used both
by `add` and by `similarity_search` on the query. -/
noncomputable def normalizeVec (v : List ℝ) : List ℝ :=
  v.map fun x => x / (l2norm v + npEps)

/-- Dot product (`mat.dot(q)` rowwise). -/
def dotList (a b : List ℝ) : ℝ := (List.zipWith (· * ·) a b).sum

/-- The class `InMemoryVectorStore`: three parallel append-only lists. -/
structure InMemoryVectorStore (α : Type) where
  vectors : List (List ℝ)
  metadatas : List α
  ids : List String

/-- The store created by `__init__`. -/
def InMemoryVectorStore.empty {α : Type} : InMemoryVectorStore α := ⟨[], [], []⟩

/-- Python `id or str(len(self.ids))` (both `None` and `""` fall back). -/
def pyOrId (id? : Option String) (dflt : String) : String :=
  match id? with
  | none => dflt
  | some s => if s = "" then dflt else s

/-- Model of `add(vec, metadata, id)`: append the unit-normalised vector, its
metadata, and the given or auto-assigned id. -/
noncomputable def InMemoryVectorStore.add {α : Type}
    (st : InMemoryVectorStore α) (vec : List ℝ) (metadata : α)
    (id? : Option String) : InMemoryVectorStore α :=
  { vectors := st.vectors ++ [normalizeVec vec]
    metadatas := st.metadatas ++ [metadata]
    ids := st.ids ++ [pyOrId id? (Nat.repr st.ids.length)] }

/-- A retrieval result `{"id": ..., "score": ..., "metadata": ...}`. -/
structure RetrievalResult (α : Type) where
  id : String
  score : ℝ
  metadata : α

/-- The scores `mat.dot(q)` of `similarity_search`: dot product of every
stored vector with the normalised query. -/
noncomputable def searchScores {α : Type} (st : InMemoryVectorStore α)
    (query_vec : List ℝ) : List ℝ :=
  st.vectors.map fun v => dotList v (normalizeVec query_vec)

/-- The comparison implemented by `np.argsort(-scores)` on index pairs:
higher score first, ties in insertion order. -/
def rankRel (s : ℕ → ℝ) (i j : ℕ) : Prop :=
  s j < s i ∨ (s i = s j ∧ i ≤ j)

/-- Model of `np.argsort(-scores)`: the indices `0..n-1` sorted by decreasing
score, ties by index. -/
noncomputable def argsortDesc (scores : List ℝ) : List ℕ :=
  @List.insertionSort ℕ (rankRel fun i => scores.getD i 0)
    (Classical.decRel _) (List.range scores.length)

/-- Model of `similarity_search(query_vec, top_k)`: empty store gives `[]`,
otherwise the `top_k` first entries of the score-sorted index list,
each materialised as a result record. -/
noncomputable def similarity_search {α : Type} [Inhabited α]
    (st : InMemoryVectorStore α) (query_vec : List ℝ) (top_k : ℕ) :
    List (RetrievalResult α) :=
  if st.vectors.length = 0 then []
  else
    ((argsortDesc (searchScores st query_vec)).take top_k).map fun i =>
      { id := st.ids.getD i ""
        score := (searchScores st query_vec).getD i 0
        metadata := st.metadatas.getD i default }

theorem rankRel_total (s : ℕ → ℝ) (i j : ℕ) : rankRel s i j ∨ rankRel s j i := by
  unfold rankRel
  rcases lt_trichotomy (s i) (s j) with h | h | h
  · exact Or.inr (Or.inl h)
  · rcases le_total i j with hij | hij
    · exact Or.inl (Or.inr ⟨h, hij⟩)
    · exact Or.inr (Or.inr ⟨h.symm, hij⟩)
  · exact Or.inl (Or.inl h)

theorem rankRel_trans (s : ℕ → ℝ) (i j k : ℕ) (h1 : rankRel s i j)
    (h2 : rankRel s j k) : rankRel s i k := by
  unfold rankRel at *
  rcases h1 with h1 | ⟨h1e, h1le⟩
  · rcases h2 with h2 | ⟨h2e, h2le⟩
    · exact Or.inl (h2.trans h1)
    · exact Or.inl (h2e ▸ h1)
  · rcases h2 with h2 | ⟨h2e, h2le⟩
    · exact Or.inl (h1e ▸ h2)
    · exact Or.inr ⟨h1e.trans h2e, h1le.trans h2le⟩

/-- The argsort output is a permutation of all stored indices. -/
theorem argsortDesc_perm (scores : List ℝ) :
    List.Perm (argsortDesc scores) (List.range scores.length) :=
  @List.perm_insertionSort ℕ (rankRel fun i => scores.getD i 0)
    (Classical.decRel _) (List.range scores.length)

theorem argsortDesc_length (scores : List ℝ) :
    (argsortDesc scores).length = scores.length := by
  have := (argsortDesc_perm scores).length_eq
  simpa using this

theorem argsortDesc_nodup (scores : List ℝ) : (argsortDesc scores).Nodup :=
  (argsortDesc_perm scores).nodup_iff.mpr (List.nodup_range scores.length)

/-- The argsort output is sorted for the tie-broken comparison. -/
theorem argsortDesc_sorted (scores : List ℝ) :
    List.Sorted (rankRel fun i => scores.getD i 0) (argsortDesc scores) := by
  letI : DecidableRel (rankRel fun i => scores.getD i 0) := Classical.decRel _
  haveI : IsTotal ℕ (rankRel fun i => scores.getD i 0) :=
    ⟨fun i j => rankRel_total _ i j⟩
  haveI : IsTrans ℕ (rankRel fun i => scores.getD i 0) :=
    ⟨fun i j k => rankRel_trans _ i j k⟩
  exact List.sorted_insertionSort _ _

/-- The argsort output is strictly sorted: descending score, strictly
ascending index on ties. -/
theorem argsortDesc_pairwise (scores : List ℝ) :
    (argsortDesc scores).Pairwise fun i j =>
      scores.getD j 0 < scores.getD i 0 ∨
        (scores.getD i 0 = scores.getD j 0 ∧ i < j) := by
  have hs := argsortDesc_sorted scores
  have hn : (argsortDesc scores).Pairwise (· ≠ ·) := argsortDesc_nodup scores
  have := (List.Pairwise.and hs hn)
  refine this.imp ?_
  rintro i j ⟨hr, hne⟩
  rcases hr with hr | ⟨he, hle⟩
  · exact Or.inl hr
  · exact Or.inr ⟨he, lt_of_le_of_ne hle hne⟩

/-- The full contract that numpy gives for `np.argsort(-scores)` with
the default `kind='quicksort'`: some permutation of all indices along
which the scores are non-increasing.  The order among equal scores is
not specified (numpy offers `kind='stable'` separately for that
guarantee). -/
def DescendingSortOf (scores : List ℝ) (idx : List ℕ) : Prop :=
  List.Perm idx (List.range scores.length) ∧
  idx.Pairwise fun i j => scores.getD j 0 ≤ scores.getD i 0

/-- A store of two identical vectors: every query scores both entries
equally. -/
noncomputable def tieStore : InMemoryVectorStore ℕ :=
  ⟨[[1], [1]], [0, 0], ["a", "b"]⟩

/-- C1: at the tied-score input (two identical stored vectors, so both
cosine scores against the query coincide), the argsort contract
`DescendingSortOf` admits the index order `[1, 0]`, which violates the
claimed earlier-inserted-first tie order.  Insertion-order tie-breaking
is therefore not a consequence of the sort the code calls
(`np.argsort` with its default, non-stable kind): the spec's stable
ordering requires `kind='stable'`, which the code does not pass. -/
theorem argsort_contract_allows_tie_reorder :
    DescendingSortOf (searchScores tieStore [(1 : ℝ)]) [1, 0] ∧
    ¬ List.Pairwise (fun i j =>
        (searchScores tieStore [(1 : ℝ)]).getD j 0 <
          (searchScores tieStore [(1 : ℝ)]).getD i 0 ∨
        ((searchScores tieStore [(1 : ℝ)]).getD i 0 =
          (searchScores tieStore [(1 : ℝ)]).getD j 0 ∧ i < j))
      [1, 0] := by
  have hs : (searchScores tieStore [(1 : ℝ)]).getD 0 0 =
      (searchScores tieStore [(1 : ℝ)]).getD 1 0 := rfl
  constructor
  · constructor
    · show List.Perm [1, 0] (List.range (searchScores tieStore [(1 : ℝ)]).length)
      have hr : List.range (searchScores tieStore [(1 : ℝ)]).length = [0, 1] := rfl
      rw [hr]
      exact List.Perm.swap 0 1 []
    · refine List.Pairwise.cons ?_ (List.pairwise_singleton _ _)
      intro j hj
      simp only [List.mem_singleton] at hj
      subst hj
      exact le_of_eq hs.symm
  · intro h
    have hpair := (List.pairwise_cons.mp h).1 0 (List.mem_singleton.mpr rfl)
    rcases hpair with hlt | ⟨-, hidx⟩
    · rw [hs] at hlt
      exact lt_irrefl _ hlt
    · omega

/-- C10: `similarity_search` returns exactly `min top_k n` results (so
`[]` on an empty store), and when `top_k ≥ n` the results are a
permutation of the records of all stored entries. -/
theorem similarity_search_count {α : Type} [Inhabited α]
    (st : InMemoryVectorStore α) (q : List ℝ) (k : ℕ) :
    (similarity_search st q k).length = min k st.vectors.length ∧
    (st.vectors = [] → similarity_search st q k = []) ∧
    (st.vectors.length ≤ k →
      List.Perm (similarity_search st q k)
        ((List.range st.vectors.length).map fun i =>
          { id := st.ids.getD i ""
            score := (searchScores st q).getD i 0
            metadata := st.metadatas.getD i default })) := by
  have hlen : (searchScores st q).length = st.vectors.length := by
    simp [searchScores]
  refine ⟨?_, ?_, ?_⟩
  · unfold similarity_search
    by_cases hv : st.vectors.length = 0
    · rw [if_pos hv]
      simp [hv]
    · rw [if_neg hv]
      simp only [List.length_map, List.length_take, argsortDesc_length, hlen]
  · intro hv
    unfold similarity_search
    rw [if_pos (by simp [hv])]
  · intro hk
    by_cases hv : st.vectors.length = 0
    · unfold similarity_search
      rw [if_pos hv]
      rw [hv]
      simp
    · unfold similarity_search
      rw [if_neg hv]
      have htake : (argsortDesc (searchScores st q)).take k =
          argsortDesc (searchScores st q) :=
        List.take_of_length_le (by rw [argsortDesc_length, hlen]; exact hk)
      rw [htake]
      exact (hlen ▸ argsortDesc_perm (searchScores st q)).map _

/-- Witness for C10: searching the empty store returns `[]`. -/
theorem similarity_search_count_witness :
    (InMemoryVectorStore.empty (α := ℕ)).vectors = [] ∧
    similarity_search (InMemoryVectorStore.empty (α := ℕ)) [(1 : ℝ)] 5 = [] :=
  ⟨rfl, (similarity_search_count (InMemoryVectorStore.empty (α := ℕ))
    [(1 : ℝ)] 5).2.1 rfl⟩

/-! ### Norm facts for `add` -/

theorem sumSq_nonneg (v : List ℝ) : 0 ≤ sumSq v := by
  unfold sumSq
  apply List.sum_nonneg
  intro x hx
  obtain ⟨y, -, rfl⟩ := List.mem_map.mp hx
  exact mul_self_nonneg y

theorem l2norm_nonneg (v : List ℝ) : 0 ≤ l2norm v :=
  Real.sqrt_nonneg _

theorem npEps_pos : 0 < npEps := by
  unfold npEps
  positivity

/-- Scaling the entries by `1/d` scales the sum of squares by `1/d²`. -/
theorem sumSq_div (v : List ℝ) (d : ℝ) :
    sumSq (v.map fun x => x / d) = sumSq v / (d * d) := by
  induction v with
  | nil => simp [sumSq]
  | cons x xs ih =>
    simp only [sumSq, List.map_cons, List.sum_cons] at *
    rw [ih, div_mul_div_comm, div_add_div_same]

/-- Scaling the entries by `1/d`, `d ≥ 0`, scales the norm by `1/d`. -/
theorem l2norm_div (v : List ℝ) (d : ℝ) (hd : 0 ≤ d) :
    l2norm (v.map fun x => x / d) = l2norm v / d := by
  unfold l2norm
  rw [sumSq_div, Real.sqrt_div (sumSq_nonneg v), Real.sqrt_mul_self hd]

/-- The norm of the stored vector in closed form. -/
theorem l2norm_normalizeVec (v : List ℝ) :
    l2norm (normalizeVec v) = l2norm v / (l2norm v + npEps) := by
  unfold normalizeVec
  exact l2norm_div v _ (by have := l2norm_nonneg v; have := npEps_pos; linarith)

/-- For vectors that are not tiny, the stored norm is within `10⁻⁵`
of `1`. -/
theorem normalized_norm_close (v : List ℝ)
    (h : (1 : ℝ) / 10 ^ 5 ≤ l2norm v) :
    |l2norm (normalizeVec v) - 1| ≤ 1 / 10 ^ 5 := by
  rw [l2norm_normalizeVec]
  set N := l2norm v with hN
  have hNpos : 0 < N := lt_of_lt_of_le (by norm_num) h
  have hEps : 0 < npEps := npEps_pos
  have hden : 0 < N + npEps := by linarith
  have heq : N / (N + npEps) - 1 = -(npEps / (N + npEps)) := by
    field_simp
  rw [heq, abs_neg, abs_of_nonneg (div_nonneg (le_of_lt hEps) (le_of_lt hden))]
  have h1 : npEps / (N + npEps) ≤ npEps / N :=
    div_le_div_of_nonneg_left (le_of_lt hEps) hNpos (by linarith)
  have h2 : npEps / N ≤ npEps / (1 / 10 ^ 5) :=
    div_le_div_of_nonneg_left (le_of_lt hEps) (by norm_num) h
  have h3 : npEps / (1 / 10 ^ 5) ≤ 1 / 10 ^ 5 := by
    unfold npEps
    norm_num
  linarith

/-- Folding a sequence of `add` calls over a store. -/
noncomputable def applyAdds {α : Type} (st : InMemoryVectorStore α)
    (ops : List (List ℝ × α × Option String)) : InMemoryVectorStore α :=
  ops.foldl (fun acc op => acc.add op.1 op.2.1 op.2.2) st

/-- Every vector in a store built by a sequence of `add` calls is an
initial vector or the normalisation of one of the added vectors. -/
theorem applyAdds_vectors {α : Type} :
    ∀ (ops : List (List ℝ × α × Option String))
      (st : InMemoryVectorStore α), ∀ w ∈ (applyAdds st ops).vectors,
      w ∈ st.vectors ∨ ∃ op ∈ ops, w = normalizeVec op.1 := by
  intro ops
  induction ops with
  | nil => intro st w hw; exact Or.inl hw
  | cons op rest ih =>
    intro st w hw
    simp only [applyAdds, List.foldl_cons] at hw
    have hw' := ih (st.add op.1 op.2.1 op.2.2) w hw
    rcases hw' with hmem | ⟨op', hop', hweq⟩
    · simp only [InMemoryVectorStore.add, List.mem_append,
        List.mem_singleton] at hmem
      rcases hmem with hmem | hmem
      · exact Or.inl hmem
      · exact Or.inr ⟨op, List.mem_cons_self op rest, hmem⟩
    · exact Or.inr ⟨op', List.mem_cons_of_mem op hop', hweq⟩

/-- C7 (amended): the denominator `norm + 1e-10` used by `add` is
always positive (no division by zero), and every vector stored by any
sequence of `add` calls whose inputs have norm at least `10⁻⁵` has
L2 norm within `10⁻⁵` of 1 (its exact norm is `N / (N + 1e-10)` for
input norm `N`).  For inputs with norm below that scale — in
particular the zero vector — the stored norm is not close to 1; see
the counterexample. -/
theorem add_unit_norm {α : Type} :
    (∀ v : List ℝ, 0 < l2norm v + npEps) ∧
    (∀ v : List ℝ, (1 : ℝ) / 10 ^ 5 ≤ l2norm v →
      |l2norm (normalizeVec v) - 1| ≤ 1 / 10 ^ 5) ∧
    (∀ ops : List (List ℝ × α × Option String),
      (∀ op ∈ ops, (1 : ℝ) / 10 ^ 5 ≤ l2norm op.1) →
      ∀ w ∈ (applyAdds InMemoryVectorStore.empty ops).vectors,
        |l2norm w - 1| ≤ 1 / 10 ^ 5) := by
  refine ⟨?_, ?_, ?_⟩
  · intro v
    have := l2norm_nonneg v
    have := npEps_pos
    linarith
  · exact normalized_norm_close
  · intro ops hops w hw
    rcases applyAdds_vectors ops InMemoryVectorStore.empty w hw with hmem | hex
    · simp [InMemoryVectorStore.empty] at hmem
    · obtain ⟨op, hop, rfl⟩ := hex
      exact normalized_norm_close op.1 (hops op hop)

/-- Witness for C7 (amended): adding the single vector `[1, 0]` (norm
1) stores a vector of norm within `10⁻⁵` of 1. -/
theorem add_unit_norm_witness :
    (∀ op ∈ [([(1 : ℝ), 0], (0 : ℕ), (none : Option String))],
      (1 : ℝ) / 10 ^ 5 ≤ l2norm op.1) ∧
    (∀ w ∈ (applyAdds InMemoryVectorStore.empty
        [([(1 : ℝ), 0], (0 : ℕ), (none : Option String))]).vectors,
      |l2norm w - 1| ≤ 1 / 10 ^ 5) := by
  have hnorm : l2norm [(1 : ℝ), 0] = 1 := by
    unfold l2norm sumSq
    norm_num
  have hops : ∀ op ∈ [([(1 : ℝ), 0], (0 : ℕ), (none : Option String))],
      (1 : ℝ) / 10 ^ 5 ≤ l2norm op.1 := by
    intro op hop
    simp only [List.mem_singleton] at hop
    rw [hop]
    rw [show ([(1 : ℝ), 0], (0 : ℕ), (none : Option String)).1 =
      [(1 : ℝ), 0] from rfl, hnorm]
    norm_num
  exact ⟨hops, (add_unit_norm (α := ℕ)).2.2
    [([(1 : ℝ), 0], (0 : ℕ), (none : Option String))] hops⟩

/-- C7 counterexample: `add` on the zero vector stores the zero vector
itself, whose L2 norm is 0, not within any reasonable epsilon of 1. -/
theorem add_zero_vector_not_unit :
    (InMemoryVectorStore.empty.add [(0 : ℝ)] (0 : ℕ) none).vectors =
      [[(0 : ℝ)]] ∧
    l2norm [(0 : ℝ)] = 0 ∧
    ¬ |l2norm [(0 : ℝ)] - 1| ≤ 1 / 2 := by
  have hzero : l2norm [(0 : ℝ)] = 0 := by
    unfold l2norm sumSq
    norm_num
  refine ⟨?_, hzero, ?_⟩
  · simp only [InMemoryVectorStore.add, InMemoryVectorStore.empty]
    simp [normalizeVec]
  · rw [hzero]
    norm_num

/-! ### The QA engine: `backend/qa.py` -/

/-- The payload stored by `QAEngine.add_documents`:
`{"text": c["text"], "metadata": meta}`. -/
structure Payload where
  text : List Char
  metadata : ChunkMeta

instance : Inhabited ChunkMeta :=
  ⟨⟨0, 0, "", "", "", "", "", none⟩⟩

instance : Inhabited Payload := ⟨⟨[], default⟩⟩

/-- The confidence record returned by `_compute_confidence`. -/
structure Confidence where
  label : String
  max_score : ℝ
  avg_score : ℝ
  explanation : String

/-- The explanation used when no chunks were retrieved. -/
def noChunksExplanation : String :=
  "No supporting chunks retrieved; answer is likely ungrounded."

/-- The explanation attached to score-based confidence. -/
def confExplanation : String :=
  "Derived from cosine similarity between the question and retrieved chunks. Higher scores mean the answer is better grounded in the source documents."

/-- Python `max(scores)` (0 is never reached: callers guard emptiness). -/
noncomputable def listMax : List ℝ → ℝ
  | [] => 0
  | x :: xs => xs.foldl max x

/-- Model of `_compute_confidence(scores)`. -/
noncomputable def compute_confidence (scores : List ℝ) : Confidence :=
  if scores = [] then
    { label := "low", max_score := 0, avg_score := 0,
      explanation := noChunksExplanation }
  else
    { label :=
        if listMax scores > 0.85 ∧ scores.sum / scores.length > 0.65 then
          "high"
        else if listMax scores > 0.6 ∧ scores.sum / scores.length > 0.4 then
          "medium"
        else "low"
      max_score := listMax scores
      avg_score := scores.sum / scores.length
      explanation := confExplanation }

/-- One retrieved chunk as accumulated by
`_group_retrieved_by_document`. -/
structure ChunkInfo where
  text : List Char
  score : ℝ
  page : Option ℤ
  source_name : String
  document_name : String
  source_path : String

/-- The per-document source description. -/
structure SourceMeta where
  document_name : String
  source_name : String
  source_path : String
  pages : List ℤ

/-- The grouping key
`meta.get("document_name") or meta.get("title") or meta.get("source_name") or "unknown_doc"`. -/
def metaDocKey (m : ChunkMeta) : String :=
  if m.document_name ≠ "" then m.document_name
  else if m.title ≠ "" then m.title
  else if m.source_name ≠ "" then m.source_name
  else "unknown_doc"

/-- The display name fallback chain (without the `"unknown_doc"` tail). -/
def metaDocName (m : ChunkMeta) : String :=
  if m.document_name ≠ "" then m.document_name
  else if m.title ≠ "" then m.title
  else m.source_name

/-- The `chunk_info` record built for each retrieved result. -/
def mkChunkInfo (r : RetrievalResult Payload) : ChunkInfo :=
  { text := r.metadata.text
    score := r.score
    page := r.metadata.metadata.page
    source_name := r.metadata.metadata.source_name
    document_name := metaDocName r.metadata.metadata
    source_path := r.metadata.metadata.source_path }

/-- Model of `grouped.setdefault(doc_id, []).append(chunk_info)` on an
insertion-ordered association list. -/
def addGrouped (groups : List (String × List ChunkInfo)) (k : String)
    (ci : ChunkInfo) : List (String × List ChunkInfo) :=
  match groups with
  | [] => [(k, [ci])]
  | (k', cis) :: rest =>
    if k' = k then (k', cis ++ [ci]) :: rest
    else (k', cis) :: addGrouped rest k ci

/-- The source record created on first sight of a document key. -/
def initSource (k : String) (ci : ChunkInfo) : SourceMeta :=
  { document_name := if ci.document_name ≠ "" then ci.document_name else k
    source_name := ci.source_name
    source_path := ci.source_path
    pages := [] }

/-- Add a page to the page set of the entry with key `k`. -/
def addPageToSources (srcs : List (String × SourceMeta)) (k : String)
    (pg : ℤ) : List (String × SourceMeta) :=
  srcs.map fun e =>
    if e.1 = k then
      (e.1, { e.2 with pages :=
        if pg ∈ e.2.pages then e.2.pages else e.2.pages ++ [pg] })
    else e

/-- The source-map update for one retrieved chunk. -/
def updateSources (srcs : List (String × SourceMeta)) (k : String)
    (ci : ChunkInfo) : List (String × SourceMeta) :=
  let srcs' := if srcs.any (fun e => e.1 = k) then srcs
    else srcs ++ [(k, initSource k ci)]
  match ci.page with
  | none => srcs'
  | some pg => addPageToSources srcs' k pg

/-- The loop body of `_group_retrieved_by_document`. -/
def groupStep
    (acc : List (String × List ChunkInfo) × List (String × SourceMeta))
    (r : RetrievalResult Payload) :
    List (String × List ChunkInfo) × List (String × SourceMeta) :=
  (addGrouped acc.1 (metaDocKey r.metadata.metadata) (mkChunkInfo r),
   updateSources acc.2 (metaDocKey r.metadata.metadata) (mkChunkInfo r))

/-- Model of `_group_retrieved_by_document(retrieved)`: group chunk infos by
document key in insertion order, and normalise each source's page set
into a sorted list. -/
def group_retrieved_by_document
    (retrieved : List (RetrievalResult Payload)) :
    List (String × List ChunkInfo) × List (String × SourceMeta) :=
  let acc := retrieved.foldl groupStep ([], [])
  (acc.1, acc.2.map fun e =>
    (e.1, { e.2 with pages := List.insertionSort (· ≤ ·) e.2.pages }))

/-- The combined-mode trigger phrases. -/
def combinedKeywords : List (List Char) :=
  ["these papers".data, "all papers".data, "combined".data, "together".data]

/-- Test that `sub` is a prefix of `l`. -/
def startsWithList : List Char → List Char → Bool
  | [], _ => true
  | _ :: _, [] => false
  | x :: xs, y :: ys => x = y && startsWithList xs ys

/-- Python `sub in hay` for strings. -/
def containsSub (hay sub : List Char) : Bool :=
  match hay with
  | [] => sub.isEmpty
  | _ :: rest => startsWithList sub hay || containsSub rest sub

/-- Model of `any(keyword in query.lower() for keyword in [...])`. -/
def isCombinedQuery (q : List Char) : Bool :=
  combinedKeywords.any fun kw => containsSub (q.map Char.toLower) kw

/-- Model of `sep.join(parts)`. -/
def joinSep (sep : List Char) : List (List Char) → List Char
  | [] => []
  | [x] => x
  | x :: rest => x ++ sep ++ joinSep sep rest

/-- The chunk texts of one document group. -/
def docTexts (g : String × List ChunkInfo) : List (List Char) :=
  g.2.map (·.text)

/-- The combined-mode prompt. -/
def combinedPrompt (allText query : List Char) : List Char :=
  "You are a research assistant answering questions over multiple documents.\nUse ONLY the provided context and do not invent facts that are not supported by it.\n\nContext:\n".data ++
    allText ++ "\n\nQuestion: ".data ++ query ++
    "\nAnswer (be concise but specific):\n".data

/-- The per-document prompt. -/
def perDocPrompt (docText query : List Char) : List Char :=
  "You are a research assistant answering questions about a single document.\nUse ONLY the provided context from this document; if the answer is not present, say so explicitly.\n\nContext:\n".data ++
    docText ++ "\n\nQuestion: ".data ++ query ++
    "\nAnswer (be concise but specific):\n".data

/-- The fallback answer text. -/
def noEvidenceMsg : List Char :=
  "I could not find any relevant content in the ingested documents for this question.".data

/-- The structured payload returned by `ask`. -/
structure AskResult where
  mode : String
  answer : Option (List Char)
  answers : List (String × List Char)
  sources : List SourceMeta
  confidence : Confidence

/-- The confidence record of the no-evidence fallback. -/
noncomputable def noEvidenceConfidence : Confidence :=
  { label := "low", max_score := 0, avg_score := 0,
    explanation := noChunksExplanation }

/-- The full no-evidence fallback payload of `ask`. -/
noncomputable def noEvidenceResult : AskResult :=
  { mode := "none", answer := some noEvidenceMsg, answers := [],
    sources := [], confidence := noEvidenceConfidence }

/-- Model of `QAEngine.ask(query, top_k)`.  The embedding and generation
providers are abstracted as functions; the second component of the
result is the list of prompts passed to the generation provider, in
call order (the call log of the provider boundary). -/
noncomputable def ask (st : InMemoryVectorStore Payload)
    (embed : List Char → List ℝ) (gen : List Char → List Char)
    (query : List Char) (top_k : ℕ) : AskResult × List (List Char) :=
  let retrieved := similarity_search st (embed query) top_k
  if retrieved.isEmpty then
    (noEvidenceResult, [])
  else
    let gs := group_retrieved_by_document retrieved
    let confidence := compute_confidence ((gs.1.map fun g =>
      g.2.map (·.score)).flatten)
    if isCombinedQuery query then
      let prompt := combinedPrompt
        (joinSep "\n\n".data ((gs.1.map docTexts).flatten)) query
      ({ mode := "combined", answer := some (gen prompt), answers := [],
         sources := gs.2.map (·.2), confidence := confidence }, [prompt])
    else
      ({ mode := "per_document", answer := none,
         answers := gs.1.map fun g =>
           (g.1, gen (perDocPrompt (joinSep "\n\n".data (docTexts g)) query)),
         sources := gs.2.map (·.2), confidence := confidence },
       gs.1.map fun g => perDocPrompt (joinSep "\n\n".data (docTexts g)) query)

/-! ### Confidence: claim C4 -/

theorem le_foldl_max (xs : List ℝ) : ∀ a : ℝ, a ≤ xs.foldl max a := by
  induction xs with
  | nil => intro a; exact le_refl a
  | cons x xs ih => intro a; exact le_trans (le_max_left a x) (ih (max a x))

theorem mem_le_foldl_max (xs : List ℝ) :
    ∀ (a x : ℝ), x ∈ xs → x ≤ xs.foldl max a := by
  induction xs with
  | nil => intro a x hx; simp at hx
  | cons y ys ih =>
    intro a x hx
    rcases List.mem_cons.mp hx with rfl | hx
    · exact le_trans (le_max_right a x) (le_foldl_max ys (max a x))
    · exact ih (max a y) x hx

theorem foldl_max_mem (xs : List ℝ) :
    ∀ a : ℝ, xs.foldl max a = a ∨ xs.foldl max a ∈ xs := by
  induction xs with
  | nil => intro a; exact Or.inl rfl
  | cons x xs ih =>
    intro a
    rw [List.foldl_cons]
    rcases ih (max a x) with h | h
    · rcases max_choice a x with hm | hm
      · left; rw [h, hm]
      · right; rw [h, hm]; exact List.mem_cons_self x xs
    · right; exact List.mem_cons_of_mem _ h

/-- Value `max(scores)` is the maximum of a nonempty score list. -/
theorem listMax_is_max (scores : List ℝ) (h : scores ≠ []) :
    (∀ x ∈ scores, x ≤ listMax scores) ∧ listMax scores ∈ scores := by
  cases scores with
  | nil => exact absurd rfl h
  | cons s rest =>
    constructor
    · intro x hx
      rcases List.mem_cons.mp hx with rfl | hx
      · exact le_foldl_max rest x
      · exact mem_le_foldl_max rest s x hx
    · rcases foldl_max_mem rest s with hm | hm
      · rw [listMax, hm]; exact List.mem_cons_self s rest
      · exact List.mem_cons_of_mem _ hm

/-- C4: for nonempty scores the label is `high` iff
`max > 0.85 ∧ avg > 0.65`, else `medium` iff `max > 0.6 ∧ avg > 0.4`,
else `low`, where `max_score` is the maximum and `avg_score` the
arithmetic mean; the empty list yields `low` with both scores 0; and
`[0.9, 0.9] ↦ high`, `[0.7, 0.5] ↦ medium`, `[0.2] ↦ low`. -/
theorem compute_confidence_spec :
    (∀ scores : List ℝ, scores ≠ [] →
      ((∀ x ∈ scores, x ≤ listMax scores) ∧ listMax scores ∈ scores) ∧
      (compute_confidence scores).max_score = listMax scores ∧
      (compute_confidence scores).avg_score = scores.sum / scores.length ∧
      ((compute_confidence scores).label = "high" ↔
        listMax scores > 0.85 ∧ scores.sum / scores.length > 0.65) ∧
      ((compute_confidence scores).label = "medium" ↔
        ¬(listMax scores > 0.85 ∧ scores.sum / scores.length > 0.65) ∧
          (listMax scores > 0.6 ∧ scores.sum / scores.length > 0.4)) ∧
      ((compute_confidence scores).label = "low" ↔
        ¬(listMax scores > 0.85 ∧ scores.sum / scores.length > 0.65) ∧
          ¬(listMax scores > 0.6 ∧ scores.sum / scores.length > 0.4))) ∧
    compute_confidence [] = noEvidenceConfidence ∧
    (compute_confidence [0.9, 0.9]).label = "high" ∧
    (compute_confidence [0.7, 0.5]).label = "medium" ∧
    (compute_confidence [0.2]).label = "low" := by
  have hgen : ∀ scores : List ℝ, scores ≠ [] →
      ((∀ x ∈ scores, x ≤ listMax scores) ∧ listMax scores ∈ scores) ∧
      (compute_confidence scores).max_score = listMax scores ∧
      (compute_confidence scores).avg_score = scores.sum / scores.length ∧
      ((compute_confidence scores).label = "high" ↔
        listMax scores > 0.85 ∧ scores.sum / scores.length > 0.65) ∧
      ((compute_confidence scores).label = "medium" ↔
        ¬(listMax scores > 0.85 ∧ scores.sum / scores.length > 0.65) ∧
          (listMax scores > 0.6 ∧ scores.sum / scores.length > 0.4)) ∧
      ((compute_confidence scores).label = "low" ↔
        ¬(listMax scores > 0.85 ∧ scores.sum / scores.length > 0.65) ∧
          ¬(listMax scores > 0.6 ∧ scores.sum / scores.length > 0.4)) := by
    intro scores hne
    refine ⟨listMax_is_max scores hne, ?_⟩
    unfold compute_confidence
    rw [if_neg hne]
    dsimp only
    by_cases hA : listMax scores > 0.85 ∧ scores.sum / scores.length > 0.65
    · rw [if_pos hA]
      refine ⟨rfl, rfl, ?_, ?_, ?_⟩
      · exact ⟨fun _ => hA, fun _ => rfl⟩
      · exact ⟨fun hc => absurd hc (by decide : ("high" : String) ≠ "medium"), fun hc => absurd hA hc.1⟩
      · exact ⟨fun hc => absurd hc (by decide : ("high" : String) ≠ "low"), fun hc => absurd hA hc.1⟩
    · rw [if_neg hA]
      by_cases hB : listMax scores > 0.6 ∧ scores.sum / scores.length > 0.4
      · rw [if_pos hB]
        refine ⟨rfl, rfl, ?_, ?_, ?_⟩
        · exact ⟨fun hc => absurd hc (by decide : ("medium" : String) ≠ "high"), fun hc => absurd hc hA⟩
        · exact ⟨fun _ => ⟨hA, hB⟩, fun _ => rfl⟩
        · exact ⟨fun hc => absurd hc (by decide : ("medium" : String) ≠ "low"), fun hc => absurd hB hc.2⟩
      · rw [if_neg hB]
        refine ⟨rfl, rfl, ?_, ?_, ?_⟩
        · exact ⟨fun hc => absurd hc (by decide : ("low" : String) ≠ "high"), fun hc => absurd hc hA⟩
        · exact ⟨fun hc => absurd hc (by decide : ("low" : String) ≠ "medium"), fun hc => absurd hc.2 hB⟩
        · exact ⟨fun _ => ⟨hA, hB⟩, fun _ => rfl⟩
  refine ⟨hgen, by rfl, ?_, ?_, ?_⟩
  · have h := hgen [0.9, 0.9] (by simp)
    rcases h with ⟨-, -, -, hhigh, -, -⟩
    refine hhigh.mpr ⟨?_, ?_⟩
    · show listMax [0.9, 0.9] > 0.85
      unfold listMax
      simp only [List.foldl_cons, List.foldl_nil, max_self]
      norm_num
    · norm_num
  · have h := hgen [0.7, 0.5] (by simp)
    rcases h with ⟨-, -, -, -, hmed, -⟩
    have hmax : listMax [(0.7 : ℝ), 0.5] = 0.7 := by
      unfold listMax
      simp only [List.foldl_cons, List.foldl_nil]
      exact max_eq_left (by norm_num)
    refine hmed.mpr ⟨?_, ?_, ?_⟩
    · rw [hmax]
      intro hc
      have := hc.1
      norm_num at this
    · rw [hmax]; norm_num
    · norm_num
  · have h := hgen [0.2] (by simp)
    rcases h with ⟨-, -, -, -, -, hlow⟩
    have hmax : listMax [(0.2 : ℝ)] = 0.2 := by
      unfold listMax
      simp
    refine hlow.mpr ⟨?_, ?_⟩
    · rw [hmax]
      intro hc
      have := hc.1
      norm_num at this
    · rw [hmax]
      intro hc
      have := hc.1
      norm_num at this

/-- Witness for C4: the nonempty-scores clause applied at `[0.9, 0.9]`. -/
theorem compute_confidence_spec_witness :
    ([(0.9 : ℝ), 0.9] ≠ []) ∧
    (compute_confidence [(0.9 : ℝ), 0.9]).max_score =
      listMax [(0.9 : ℝ), 0.9] :=
  ⟨by simp, (compute_confidence_spec.1 [(0.9 : ℝ), 0.9] (by simp)).2.1⟩

/-! ### `ask`: claims C5 and C6 -/

/-- Searching an empty store yields no results. -/
theorem similarity_search_nil {α : Type} [Inhabited α] (q : List ℝ)
    (k : ℕ) :
    similarity_search (InMemoryVectorStore.empty (α := α)) q k = [] := by
  unfold similarity_search
  simp [InMemoryVectorStore.empty]

/-- The number of search results is `min top_k n`. -/
theorem similarity_search_length_helper {α : Type} [Inhabited α]
    (st : InMemoryVectorStore α) (q : List ℝ) (k : ℕ) :
    (similarity_search st q k).length = min k st.vectors.length := by
  have hlen : (searchScores st q).length = st.vectors.length := by
    simp [searchScores]
  unfold similarity_search
  by_cases hv : st.vectors.length = 0
  · rw [if_pos hv]
    simp [hv]
  · rw [if_neg hv]
    simp only [List.length_map, List.length_take, argsortDesc_length, hlen]

/-- C6: when retrieval returns no results, `ask` returns the
well-formed no-evidence payload (mode `none`, explanatory answer text,
confidence label `low` with both scores 0) and the generation provider
is never called (empty call log). -/
theorem ask_no_evidence (st : InMemoryVectorStore Payload)
    (embed : List Char → List ℝ) (gen : List Char → List Char)
    (query : List Char) (k : ℕ)
    (h : similarity_search st (embed query) k = []) :
    ask st embed gen query k = (noEvidenceResult, []) ∧
    (ask st embed gen query k).2 = [] ∧
    (ask st embed gen query k).1.answer = some noEvidenceMsg ∧
    (ask st embed gen query k).1.confidence.label = "low" ∧
    (ask st embed gen query k).1.confidence.max_score = 0 ∧
    (ask st embed gen query k).1.confidence.avg_score = 0 := by
  have h1 : ask st embed gen query k = (noEvidenceResult, []) := by
    unfold ask
    simp [h]
  refine ⟨h1, by rw [h1], by rw [h1]; rfl, by rw [h1]; rfl, by rw [h1]; rfl,
    by rw [h1]; rfl⟩

/-- Witness for C6: asking over the empty store. -/
theorem ask_no_evidence_witness :
    similarity_search (InMemoryVectorStore.empty (α := Payload))
      ((fun _ : List Char => [(1 : ℝ)]) "hello".data) 10 = [] ∧
    ask (InMemoryVectorStore.empty (α := Payload)) (fun _ => [(1 : ℝ)])
      id "hello".data 10 = (noEvidenceResult, []) :=
  ⟨similarity_search_nil _ 10,
    (ask_no_evidence (InMemoryVectorStore.empty (α := Payload))
      (fun _ => [(1 : ℝ)]) id "hello".data 10
      (similarity_search_nil _ 10)).1⟩

/-- C5: with nonempty retrieval, `ask` selects combined mode exactly
when the lowercased query contains one of the trigger phrases; in
combined mode the provider is called exactly once (singleton call log)
and the payload carries one answer string; otherwise the mode is
`per_document` and the provider is called exactly once per document
group, the answers being the map from group key to generated text. -/
theorem ask_mode_selection (st : InMemoryVectorStore Payload)
    (embed : List Char → List ℝ) (gen : List Char → List Char)
    (query : List Char) (k : ℕ)
    (h : similarity_search st (embed query) k ≠ []) :
    ((ask st embed gen query k).1.mode = "combined" ↔
      isCombinedQuery query = true) ∧
    (isCombinedQuery query = true →
      (ask st embed gen query k).2 =
        [combinedPrompt (joinSep "\n\n".data
          (((group_retrieved_by_document
            (similarity_search st (embed query) k)).1.map docTexts).flatten))
          query] ∧
      (ask st embed gen query k).1.answer =
        some (gen (combinedPrompt (joinSep "\n\n".data
          (((group_retrieved_by_document
            (similarity_search st (embed query) k)).1.map docTexts).flatten))
          query)) ∧
      (ask st embed gen query k).1.answers = []) ∧
    (isCombinedQuery query = false →
      (ask st embed gen query k).1.mode = "per_document" ∧
      (ask st embed gen query k).1.answer = none ∧
      (ask st embed gen query k).1.answers =
        (group_retrieved_by_document
          (similarity_search st (embed query) k)).1.map (fun g =>
            (g.1, gen (perDocPrompt (joinSep "\n\n".data (docTexts g))
              query))) ∧
      (ask st embed gen query k).2.length =
        (group_retrieved_by_document
          (similarity_search st (embed query) k)).1.length) := by
  have hie : (similarity_search st (embed query) k).isEmpty = false := by
    simp [List.isEmpty_iff, h]
  by_cases hcq : isCombinedQuery query = true
  · refine ⟨?_, ?_, fun hc => absurd (hcq.symm.trans hc) (by decide)⟩
    · unfold ask
      simp [hie, hcq]
    · intro _
      unfold ask
      simp [hie, hcq]
  · have hcq' : isCombinedQuery query = false := by
      cases hb : isCombinedQuery query
      · rfl
      · exact absurd hb hcq
    refine ⟨?_, fun hc => absurd (hcq'.symm.trans hc) (by decide), ?_⟩
    · unfold ask
      simp [hie, hcq']
    · intro _
      unfold ask
      simp [hie, hcq']

/-- A one-chunk store for exercising `ask`. -/
noncomputable def wStore : InMemoryVectorStore Payload :=
  ⟨[[1]], [⟨"t".data, default⟩], ["c"]⟩

/-- A constant embedding provider. -/
def wEmbed : List Char → List ℝ := fun _ => [1]

/-- An echo generation provider. -/
def wGen : List Char → List Char := id

/-- A query containing the trigger phrase `"these papers"`. -/
def wQuery : List Char := "summarize these papers".data

/-- Witness for C5: `ask` on a nonempty store with a combined-mode
query. -/
theorem ask_mode_selection_witness :
    similarity_search wStore (wEmbed wQuery) 10 ≠ [] ∧
    (((ask wStore wEmbed wGen wQuery 10).1.mode = "combined" ↔
      isCombinedQuery wQuery = true) ∧
    (isCombinedQuery wQuery = true →
      (ask wStore wEmbed wGen wQuery 10).2 =
        [combinedPrompt (joinSep "\n\n".data
          (((group_retrieved_by_document
            (similarity_search wStore (wEmbed wQuery) 10)).1.map
              docTexts).flatten)) wQuery] ∧
      (ask wStore wEmbed wGen wQuery 10).1.answer =
        some (wGen (combinedPrompt (joinSep "\n\n".data
          (((group_retrieved_by_document
            (similarity_search wStore (wEmbed wQuery) 10)).1.map
              docTexts).flatten)) wQuery)) ∧
      (ask wStore wEmbed wGen wQuery 10).1.answers = []) ∧
    (isCombinedQuery wQuery = false →
      (ask wStore wEmbed wGen wQuery 10).1.mode = "per_document" ∧
      (ask wStore wEmbed wGen wQuery 10).1.answer = none ∧
      (ask wStore wEmbed wGen wQuery 10).1.answers =
        (group_retrieved_by_document
          (similarity_search wStore (wEmbed wQuery) 10)).1.map (fun g =>
            (g.1, wGen (perDocPrompt (joinSep "\n\n".data (docTexts g))
              wQuery))) ∧
      (ask wStore wEmbed wGen wQuery 10).2.length =
        (group_retrieved_by_document
          (similarity_search wStore (wEmbed wQuery) 10)).1.length)) := by
  have hp : similarity_search wStore (wEmbed wQuery) 10 ≠ [] := by
    intro hnil
    have hl := similarity_search_length_helper wStore (wEmbed wQuery) 10
    rw [hnil] at hl
    simp [wStore] at hl
  exact ⟨hp, ask_mode_selection wStore wEmbed wGen wQuery 10 hp⟩
